import Mathlib

/-!
# Verification of the GGRC decimal-string arithmetic and event queue

This file gives a shallow embedding of the arbitrary-precision decimal
arithmetic of `src/ggrc-client/js/ggrc_base.js` (`GGRC.Math.string_add`,
`string_half`, `string_less_than`, `string_max`) and of the event queue
(`GGRC.queue_event`, `GGRC.queue_exec_next`), together with proofs and
refutations of the specified properties.

Strings are embedded as `List Char`.  The JavaScript expression `+c` applied
to a digit character is embedded as `digitVal`, `(n).toString(10)` for a
single digit as `digitChar`, and out-of-range indexing `s[i] || 0` as
`Option.getD`-style defaulting to the numeric value `0`.  The single
`throw "Decimal alignment error"` in `string_add` is embedded as `none`.
-/

/-- Numeric value of a digit character, the embedding of JavaScript `+c`
for a digit character `c`. -/
def digitVal (c : Char) : Nat := c.toNat - 48

/-- The single-character result of JavaScript `(n).toString(10)` for `n < 10`. -/
def digitChar (n : Nat) : Char := Char.ofNat (48 + n)

/-- `c` is an ASCII digit. -/
def isDig (c : Char) : Bool := decide (48 ≤ c.toNat) && decide (c.toNat ≤ 57)

/-- `c` is an ASCII digit or the decimal point: the character set of
well-formed decimal strings. -/
def digOrDot (c : Char) : Bool := isDig c || c == '.'

/-- A well-formed non-negative decimal string: every character is a digit or
a decimal point, and there is at most one decimal point.  (No sign.) -/
def wf (s : List Char) : Bool := s.all digOrDot && decide (s.count '.' ≤ 1)

/-- The number of digit (non-point) characters of a string. -/
def digCount : List Char → Nat
  | [] => 0
  | c :: r => (if c = '.' then 0 else 1) + digCount r

/-- The natural number denoted by the digit characters of a string, the
decimal point being skipped. -/
def natVal : List Char → Nat
  | [] => 0
  | c :: r => if c = '.' then natVal r else digitVal c * 10 ^ digCount r + natVal r

/-- The number of characters after the first decimal point (`0` if there is
no decimal point). -/
def fracLen : List Char → Nat
  | [] => 0
  | c :: r => if c = '.' then r.length else fracLen r

/-- The rational value denoted by a well-formed decimal string. -/
def val (s : List Char) : ℚ := (natVal s : ℚ) / 10 ^ fracLen s

/-- `a.indexOf(".") < 0` handling shared by `string_add`, `string_half` and
`string_less_than`: a decimal point is appended when absent, so that the
first decimal point is at index `(dotAppend s).indexOf '.'` in every case. -/
def dotAppend (s : List Char) : List Char := if '.' ∈ s then s else s ++ ['.']

/-- Embedding of `a[i]` on strings: `some` of the character when in range. -/
def jsCharAt (s : List Char) (i : Nat) : Option Char := s.get? i

/-- Embedding of `+(a[i] || 0)` in `string_add`: an out-of-range position is
the number `0`; a digit character converts to its value. -/
def jsIntVal : Option Char → Nat
  | none => 0
  | some c => digitVal c

/-- The `while (adi < bdi) { a = "0" + a; adi++; }` padding of `string_add`:
the first argument of the pair is left-padded with zeros until its decimal
point is at the same index as the other's.  `alignA a b` is the padded `a`;
the padded `b` is `alignA b a`. -/
def alignA (a b : List Char) : List Char :=
  List.replicate ((dotAppend b).indexOf '.' - (dotAppend a).indexOf '.') '0' ++ dotAppend a

/-- The main loop of `string_add`: `for (i = max(len) - 1; i >= 0; i--)`.
`addLoop a b M k` performs the first `k` iterations, i.e. the iterations for
indices `M-1, M-2, ..., M-k`, returning the carry `_c` and the accumulated
list `ret` (built by `unshift`), or `none` for `throw "Decimal alignment
error"`. -/
def addLoop (a b : List Char) (M : Nat) : Nat → Option (Nat × List Char)
  | 0 => some (0, [])
  | k + 1 =>
    match addLoop a b M k with
    | none => none
    | some (c, ret) =>
      let ca := jsCharAt a (M - 1 - k)
      let cb := jsCharAt b (M - 1 - k)
      if ca = some '.' ∨ cb = some '.' then
        if ca = some '.' ∧ cb = some '.' then some (c, '.' :: ret) else none
      else
        let v := jsIntVal ca + jsIntVal cb + c
        some (v / 10, digitChar (v % 10) :: ret)

/-- The epilogue of `string_add`: prepend the final carry when positive
(`ret.unshift(_c.toString(10))`), then strip a trailing decimal point. -/
def addFinish (c : Nat) (ret : List Char) : List Char :=
  let ret1 := if c > 0 then Nat.toDigits 10 c ++ ret else ret
  if ret1.getLast? = some '.' then ret1.dropLast else ret1

/-- `GGRC.Math.string_add`.  `none` embeds `throw "Decimal alignment error"`. -/
def string_add (a b : List Char) : Option (List Char) :=
  match addLoop (alignA a b) (alignA b a)
      (max (alignA a b).length (alignA b a).length)
      (max (alignA a b).length (alignA b a).length) with
  | none => none
  | some (c, ret) => some (addFinish c ret)

/-- The loop of `string_half`, processing characters left to right with the
carry `_c ∈ {0, 10}`; at the end of the input a trailing `'5'` is appended
when the final carry is positive. -/
def halfLoop : List Char → Nat → List Char
  | [], c => if c > 0 then ['5'] else []
  | ch :: rest, c =>
    if ch = '.' then '.' :: halfLoop rest c
    else
      digitChar ((digitVal ch + c) / 2) ::
        halfLoop rest (if digitVal ch % 2 = 1 then 10 else 0)

/-- The `while (ret[0] === "0" && ret.length > 1) ret.shift()` epilogue of
`string_half`: strip leading zeros but keep at least one character. -/
def shiftZeros : List Char → List Char
  | c1 :: c2 :: rest => if c1 = '0' then shiftZeros (c2 :: rest) else c1 :: c2 :: rest
  | l => l

/-- `GGRC.Math.string_half`. -/
def string_half (a : List Char) : List Char :=
  let ret := halfLoop (dotAppend a) 0
  shiftZeros (if ret.getLast? = some '.' then ret.dropLast else ret)

/-- The `/^0*/` strip of `string_less_than`: remove every leading zero. -/
def stripZeros : List Char → List Char
  | '0' :: rest => stripZeros rest
  | l => l

/-- Embedding of `(+s[i] || 0)` in the loop of `string_less_than`: an
out-of-range position and the decimal point both convert to `0`. -/
def ltVal : Option Char → Nat
  | none => 0
  | some c => if c = '.' then 0 else digitVal c

/-- The loop `for (i = 0; i < _a.length - 1; i++)` of `string_less_than`,
run over the characters of `_a.dropLast` with their indices; `some r`
embeds an early `return r`, `none` reaching the loop end. -/
def ltLoop (b : List Char) : List Char → Nat → Option Bool
  | [], _ => none
  | c :: rest, i =>
    if c = '.' then ltLoop b rest (i + 1)
    else if ltVal (some c) < ltVal (jsCharAt b i) then some true
    else if ltVal (jsCharAt b i) < ltVal (some c) then some false
    else ltLoop b rest (i + 1)

/-- `GGRC.Math.string_less_than`. -/
def string_less_than (a b : List Char) : Bool :=
  let a2 := dotAppend (stripZeros a)
  let b2 := dotAppend (stripZeros b)
  if a2.indexOf '.' < b2.indexOf '.' then true
  else if b2.indexOf '.' < a2.indexOf '.' then false
  else
    match ltLoop b2 a2.dropLast 0 with
    | some r => r
    | none => decide (b2.length < a2.length)

/-- `GGRC.Math.string_max`. -/
def string_max (a b : List Char) : List Char :=
  if string_less_than a b then b else a

/-! ## The event queue (`GGRC.queue_event` / `GGRC.queue_exec_next`)

The mutable state consists of the fields `GGRC.eventqueue` (an array of
operations, embedded opaquely as values of a type `α`) and
`GGRC.eventqueueTimeout` (a timeout handle or `null`, embedded as
`Option Unit`, `setTimeout` returning the truthy handle `some ()`). -/

structure QState (α : Type) where
  eventqueue : List α
  eventqueueTimeout : Option Unit
deriving DecidableEq

/-- The argument of `queue_event` is a single function or a list of
functions (the `typeof (events) === "function"` test). -/
inductive QEvents (α : Type) where
  | single : α → QEvents α
  | list : List α → QEvents α

/-- The list of operations denoted by a `queue_event` argument. -/
def eventsList {α : Type} : QEvents α → List α
  | .single f => [f]
  | .list fs => fs

/-- `GGRC.queue_exec_next`: shift the head operation and execute it (the
executed operation is returned as the second component; `none` when the
queue was empty and `shift` returned `undefined`), then reschedule while
elements remain, else reset the timeout to `null`. -/
def queue_exec_next {α : Type} (s : QState α) : QState α × Option α :=
  match s.eventqueue with
  | [] => (⟨[], none⟩, none)
  | fn :: rest =>
    if rest.length > 0 then (⟨rest, some ()⟩, some fn)
    else (⟨rest, none⟩, some fn)

/-- `GGRC.queue_event`: append the operations, and schedule a drain step
when none is scheduled (`if (!GGRC.eventqueueTimeout)`). -/
def queue_event {α : Type} (s : QState α) (e : QEvents α) : QState α :=
  ⟨s.eventqueue ++ eventsList e,
   match s.eventqueueTimeout with
   | none => some ()
   | some t => some t⟩

/-- Iterating the drain step `queue_exec_next` while the queue is non-empty
(with fuel), collecting the trace of executed operations. -/
def drainLoop {α : Type} : Nat → QState α → List α
  | 0, _ => []
  | n + 1, s =>
    if s.eventqueue.isEmpty then []
    else
      match queue_exec_next s with
      | (t, some f) => f :: drainLoop n t
      | (t, none) => drainLoop n t

/-- States reachable from the initial state (empty queue, `null` timeout)
by `queue_event` and `queue_exec_next` steps. -/
inductive QReach (α : Type) : QState α → Prop where
  | init : QReach α ⟨[], none⟩
  | enqueue {s : QState α} (e : QEvents α) : QReach α s → QReach α (queue_event s e)
  | exec {s : QState α} : QReach α s → QReach α (queue_exec_next s).1

/-! ## Proof-side notions

`addTail` is a structural restatement of `addLoop` for two strings of equal
length (proved equivalent in `addLoop_eq_addTail` below); `AlignedD` captures
the alignment invariant established by the padding phase of `string_add`:
equal length, decimal points at identical positions, digits elsewhere. -/

/-- Every character is a digit. -/
def allDig (s : List Char) : Bool := s.all isDig

/-- Structural version of the `string_add` loop on two equal-length strings,
processing the least significant (last) characters first. -/
def addTail : List Char → List Char → Option (Nat × List Char)
  | [], [] => some (0, [])
  | ca :: ra, cb :: rb =>
    match addTail ra rb with
    | none => none
    | some (c, ret) =>
      if ca = '.' ∨ cb = '.' then
        if ca = '.' ∧ cb = '.' then some (c, '.' :: ret) else none
      else
        some ((digitVal ca + digitVal cb + c) / 10,
          digitChar ((digitVal ca + digitVal cb + c) % 10) :: ret)
  | _, _ => none

/-- Two equal-length strings with decimal points at identical positions and
digits everywhere else. -/
inductive AlignedD : List Char → List Char → Prop where
  | nil : AlignedD [] []
  | dot {ra rb : List Char} : AlignedD ra rb → AlignedD ('.' :: ra) ('.' :: rb)
  | dig {ca cb : Char} {ra rb : List Char} : isDig ca = true → isDig cb = true →
      AlignedD ra rb → AlignedD (ca :: ra) (cb :: rb)

/-! ## Basic facts about digits and values -/

theorem digitVal_digitChar : ∀ n, n < 10 → digitVal (digitChar n) = n := by decide

theorem isDig_digitChar : ∀ n, n < 10 → isDig (digitChar n) = true := by decide

theorem digitChar_ne_dot : ∀ n, n < 10 → digitChar n ≠ '.' := by decide

theorem isDig_ne_dot {c : Char} (h : isDig c = true) : c ≠ '.' := by
  intro hc
  subst hc
  exact absurd h (by decide)

theorem isDig_digitVal_le {c : Char} (h : isDig c = true) : digitVal c ≤ 9 := by
  simp only [isDig, Bool.and_eq_true, decide_eq_true_eq] at h
  simp only [digitVal]
  omega

/-! ## Claims C1, C2, C5, C7 (counterexamples to `string_less_than` facts)

The loop of `string_less_than` runs `for (i = 0; i < _a.length - 1; i++)`,
never comparing the final character of `_a`, and its fallback returns
`_b.length >= _a.length ? false : true`.  Consequently fractional strings
whose first difference lies at the final character of `_a` are misordered. -/

/-- C1: the claim fails on the code.  With a = "0" and b = "1" we have
lessThan(a, b) = true and half(add(a, b)) = ".5", yet lessThan("0", ".5")
returns false although 0 < 0.5, so the midpoint is NOT strictly between. -/
theorem claimC1_midpoint_insertion_fails :
    string_less_than ['0'] ['1'] = true ∧
    (string_add ['0'] ['1']).map string_half = some ['.', '5'] ∧
    string_less_than ['0'] ['.', '5'] = false ∧
    val ['0'] < val ['.', '5'] := by
  refine ⟨by decide, by decide, by decide, ?_⟩
  have h1 : natVal ['0'] = 0 := by decide
  have h2 : natVal ['.', '5'] = 5 := by decide
  have h3 : fracLen ['0'] = 0 := by decide
  have h4 : fracLen ['.', '5'] = 1 := by decide
  rw [val, val, h1, h2, h3, h4]
  norm_num

/-- C2: the claim fails on the code.  0.9 < 0.91, and both inputs are
well-formed, yet lessThan("0.9", "0.91") returns false (the comparison loop
stops before the last character of the stripped "0.9"). -/
theorem claimC2_less_than_misorders_fractions :
    wf ['0', '.', '9'] = true ∧ wf ['0', '.', '9', '1'] = true ∧
    val ['0', '.', '9'] < val ['0', '.', '9', '1'] ∧
    string_less_than ['0', '.', '9'] ['0', '.', '9', '1'] = false := by
  refine ⟨by decide, by decide, ?_, by decide⟩
  have h1 : natVal ['0', '.', '9'] = 9 := by decide
  have h2 : natVal ['0', '.', '9', '1'] = 91 := by decide
  have h3 : fracLen ['0', '.', '9'] = 1 := by decide
  have h4 : fracLen ['0', '.', '9', '1'] = 2 := by decide
  rw [val, val, h1, h2, h3, h4]
  norm_num

/-- C5: the claim fails on the code.  half("0.2") = ".1" and 0.1 < 0.2, yet
lessThan(".1", "0.2") returns false, so lessThan(half(a), a) is false at the
well-formed nonzero string a = "0.2". -/
theorem claimC5_half_not_less_than_input :
    wf ['0', '.', '2'] = true ∧ ['0', '.', '2'] ≠ ['0'] ∧
    string_half ['0', '.', '2'] = ['.', '1'] ∧
    val ['.', '1'] < val ['0', '.', '2'] ∧
    string_less_than (string_half ['0', '.', '2']) ['0', '.', '2'] = false := by
  refine ⟨by decide, by decide, by decide, ?_, by decide⟩
  have h1 : natVal ['.', '1'] = 1 := by decide
  have h2 : natVal ['0', '.', '2'] = 2 := by decide
  have h3 : fracLen ['.', '1'] = 1 := by decide
  have h4 : fracLen ['0', '.', '2'] = 1 := by decide
  rw [val, val, h1, h2, h3, h4]
  norm_num

/-- C7, counterexample: "0.50" and "0.5" are well-formed and denote the same
value (they differ only in a trailing zero after the point), yet
lessThan("0.50", "0.5") returns true. -/
theorem claimC7_trailing_zero_counterexample :
    wf ['0', '.', '5', '0'] = true ∧ wf ['0', '.', '5'] = true ∧
    val ['0', '.', '5', '0'] = val ['0', '.', '5'] ∧
    string_less_than ['0', '.', '5', '0'] ['0', '.', '5'] = true := by
  refine ⟨by decide, by decide, ?_, by decide⟩
  have h1 : natVal ['0', '.', '5', '0'] = 50 := by decide
  have h2 : natVal ['0', '.', '5'] = 5 := by decide
  have h3 : fracLen ['0', '.', '5', '0'] = 2 := by decide
  have h4 : fracLen ['0', '.', '5'] = 1 := by decide
  rw [val, val, h1, h2, h3, h4]
  norm_num

/-! ## Claim C7, amended: equality up to leading zeros -/

theorem get?_dropLast {l : List Char} {j : Nat} (h : j < l.dropLast.length) :
    l.dropLast.get? j = l.get? j := by
  rw [List.dropLast_eq_take, List.get?_take]
  rw [List.dropLast_eq_take, List.length_take] at h
  omega

theorem ltLoop_eq_none (s : List Char) :
    ∀ (xs : List Char) (i : Nat),
      (∀ j, j < xs.length → xs.get? j = s.get? (i + j)) → ltLoop s xs i = none := by
  intro xs
  induction xs with
  | nil => intro i _; rfl
  | cons c rest ih =>
    intro i h
    have h0 : jsCharAt s i = some c := by
      have := h 0 (by simp)
      simpa [jsCharAt] using this.symm
    by_cases hc : c = '.'
    · rw [ltLoop, if_pos hc]
      apply ih
      intro j hj
      have := h (j + 1) (by simpa using Nat.succ_lt_succ hj)
      simp only [List.get?] at this
      rw [this]
      congr 1
      omega
    · rw [ltLoop, if_neg hc, h0, if_neg (lt_irrefl _), if_neg (lt_irrefl _)]
      apply ih
      intro j hj
      have := h (j + 1) (by simpa using Nat.succ_lt_succ hj)
      simp only [List.get?] at this
      rw [this]
      congr 1
      omega

theorem string_less_than_of_stripZeros_eq {a b : List Char}
    (h : stripZeros a = stripZeros b) : string_less_than a b = false := by
  unfold string_less_than
  rw [h]
  rw [if_neg (lt_irrefl _), if_neg (lt_irrefl _)]
  rw [ltLoop_eq_none _ _ 0 ?_]
  · simp
  · intro j hj
    rw [Nat.zero_add]
    exact get?_dropLast hj

/-- C7, amended: for well-formed decimal strings that are equal, or differ
only in leading zeros (equal after stripping leading zeros), lessThan
returns false in both directions.  The original claim's trailing-zeros case
is refuted by `claimC7_trailing_zero_counterexample`. -/
theorem claimC7_amended_not_less_of_same_digits (a b : List Char)
    (_ha : wf a = true) (_hb : wf b = true) (h : stripZeros a = stripZeros b) :
    string_less_than a b = false ∧ string_less_than b a = false :=
  ⟨string_less_than_of_stripZeros_eq h, string_less_than_of_stripZeros_eq h.symm⟩

theorem claimC7_amended_witness :
    (wf ['0', '0', '7'] = true ∧ wf ['7'] = true ∧
      stripZeros ['0', '0', '7'] = stripZeros ['7']) ∧
    (string_less_than ['0', '0', '7'] ['7'] = false ∧
      string_less_than ['7'] ['0', '0', '7'] = false) :=
  ⟨by decide, claimC7_amended_not_less_of_same_digits _ _ (by decide) (by decide) (by decide)⟩

/-! ## Claim C6: commutativity of `string_add` -/

theorem addLoop_comm (a b : List Char) (M : Nat) :
    ∀ k, addLoop a b M k = addLoop b a M k := by
  intro k
  induction k with
  | zero => rfl
  | succ k ih =>
    rw [addLoop, addLoop, ih]
    cases addLoop b a M k with
    | none => rfl
    | some p =>
      obtain ⟨c, ret⟩ := p
      simp only
      by_cases h1 : jsCharAt a (M - 1 - k) = some '.' <;>
        by_cases h2 : jsCharAt b (M - 1 - k) = some '.' <;>
          simp [h1, h2, Nat.add_comm (jsIntVal (jsCharAt a (M - 1 - k)))]

/-- C6: string addition is commutative: for all well-formed non-negative
decimal strings a and b, add(a, b) returns the same string as add(b, a). -/
theorem claimC6_string_add_comm (a b : List Char)
    (_ha : wf a = true) (_hb : wf b = true) :
    string_add a b = string_add b a := by
  unfold string_add
  rw [addLoop_comm, Nat.max_comm]

theorem claimC6_witness :
    (wf ['1'] = true ∧ wf ['2', '.', '5'] = true) ∧
    string_add ['1'] ['2', '.', '5'] = string_add ['2', '.', '5'] ['1'] :=
  ⟨by decide, claimC6_string_add_comm _ _ (by decide) (by decide)⟩

/-! ## Claim C9: FIFO draining of the event queue -/

theorem drainLoop_eventqueue {α : Type} (q : List α) :
    ∀ t : Option Unit, drainLoop q.length ⟨q, t⟩ = q := by
  induction q with
  | nil => intro t; rfl
  | cons f rest ih =>
    intro t
    by_cases h : rest.length > 0 <;>
      simp [drainLoop, queue_exec_next, h, ih]

/-- C9: enqueuing operations (a single function or a list) into an empty
queue and iterating the drain step `queue_exec_next` until the queue is
empty executes each operation exactly once, in FIFO insertion order; each
drain step removes the head of the queue, executes it, and reschedules a
next step exactly while elements remain. -/
theorem claimC9_fifo_drain {α : Type} (e : QEvents α) (s : QState α)
    (h : s.eventqueue = []) :
    drainLoop (eventsList e).length (queue_event s e) = eventsList e ∧
    ∀ t : QState α, t.eventqueue ≠ [] →
      (queue_exec_next t).1.eventqueue = t.eventqueue.tail ∧
      (queue_exec_next t).2 = t.eventqueue.head? ∧
      ((queue_exec_next t).1.eventqueueTimeout ≠ none ↔ t.eventqueue.tail ≠ []) := by
  constructor
  · have : queue_event s e =
        ⟨eventsList e,
          match s.eventqueueTimeout with | none => some () | some t => some t⟩ := by
      simp [queue_event, h]
    rw [this]
    exact drainLoop_eventqueue _ _
  · intro t ht
    match hq : t.eventqueue with
    | [] => exact absurd hq ht
    | f :: rest =>
      by_cases hr : rest.length > 0
      · have hr2 : rest ≠ [] := by
          intro h0
          rw [h0] at hr
          exact absurd hr (by simp)
        simp [queue_exec_next, hq, hr, hr2]
      · have hr2 : rest = [] := by
          cases rest with
          | nil => rfl
          | cons x xs => exact absurd (by simp) hr
        subst hr2
        simp [queue_exec_next, hq, hr]

theorem claimC9_witness :
    ((⟨[], none⟩ : QState Nat).eventqueue = []) ∧
    (drainLoop (eventsList (QEvents.list [5, 6, 7])).length
        (queue_event (⟨[], none⟩ : QState Nat) (QEvents.list [5, 6, 7])) =
      eventsList (QEvents.list [5, 6, 7]) ∧
    ∀ t : QState Nat, t.eventqueue ≠ [] →
      (queue_exec_next t).1.eventqueue = t.eventqueue.tail ∧
      (queue_exec_next t).2 = t.eventqueue.head? ∧
      ((queue_exec_next t).1.eventqueueTimeout ≠ none ↔ t.eventqueue.tail ≠ [])) :=
  ⟨rfl, claimC9_fifo_drain (QEvents.list [5, 6, 7]) ⟨[], none⟩ rfl⟩

/-! ## Claim C10: scheduling invariant of the event queue -/

theorem queue_exec_next_timeout_iff {α : Type} (s : QState α) :
    ((queue_exec_next s).1.eventqueueTimeout = none ↔
      (queue_exec_next s).1.eventqueue = []) := by
  match hq : s.eventqueue with
  | [] => simp [queue_exec_next, hq]
  | f :: rest =>
    by_cases hr : rest.length > 0
    · simp only [queue_exec_next, hq, if_pos hr]
      simp only [List.length_pos] at hr
      simp [hr]
    · simp only [queue_exec_next, hq, if_neg hr]
      simp only [Nat.pos_iff_ne_zero, ne_eq, not_not, List.length_eq_zero] at hr
      simp [hr]

/-- C10: every state reachable from the initial state (empty queue, null
timeout) by `queue_event` and `queue_exec_next` steps satisfies "queue
non-empty implies a drain step is scheduled", and `queue_exec_next` resets
the timeout to null exactly when it leaves the queue empty. -/
theorem claimC10_schedule_invariant {α : Type} (s : QState α) (h : QReach α s) :
    (s.eventqueue ≠ [] → s.eventqueueTimeout ≠ none) ∧
    ((queue_exec_next s).1.eventqueueTimeout = none ↔
      (queue_exec_next s).1.eventqueue = []) := by
  refine ⟨?_, queue_exec_next_timeout_iff s⟩
  induction h with
  | init => intro hne; exact absurd rfl hne
  | @enqueue t e _ _ =>
    intro _
    simp only [queue_event]
    cases t.eventqueueTimeout <;> simp
  | @exec t _ _ =>
    intro hne hto
    exact hne ((queue_exec_next_timeout_iff t).mp hto)

theorem claimC10_witness :
    QReach Nat ⟨[], none⟩ ∧
    (((⟨[], none⟩ : QState Nat).eventqueue ≠ [] →
        (⟨[], none⟩ : QState Nat).eventqueueTimeout ≠ none) ∧
      ((queue_exec_next (⟨[], none⟩ : QState Nat)).1.eventqueueTimeout = none ↔
        (queue_exec_next (⟨[], none⟩ : QState Nat)).1.eventqueue = [])) :=
  ⟨QReach.init, claimC10_schedule_invariant _ QReach.init⟩

/-! ## Value lemmas for concatenation and padding -/

theorem digCount_append (xs ys : List Char) :
    digCount (xs ++ ys) = digCount xs + digCount ys := by
  induction xs with
  | nil => simp [digCount]
  | cons c r ih => simp [digCount, ih]; omega

theorem natVal_append (xs ys : List Char) :
    natVal (xs ++ ys) = natVal xs * 10 ^ digCount ys + natVal ys := by
  induction xs with
  | nil => simp [natVal]
  | cons c r ih =>
    by_cases hc : c = '.'
    · simp [natVal, hc, ih]
    · simp [natVal, hc, ih, digCount_append, pow_add]
      ring

theorem digCount_replicate_zero (k : Nat) : digCount (List.replicate k '0') = k := by
  induction k with
  | zero => rfl
  | succ k ih => simp [List.replicate, digCount, ih]; omega

theorem natVal_replicate_zero (k : Nat) : natVal (List.replicate k '0') = 0 := by
  induction k with
  | zero => rfl
  | succ k ih =>
    simp [List.replicate, natVal, ih]
    decide

theorem digCount_replicate_five (k : Nat) : digCount (List.replicate k '5') = k := by
  induction k with
  | zero => rfl
  | succ k ih => simp [List.replicate, digCount, ih]; omega

theorem fracLen_not_mem {s : List Char} (h : '.' ∉ s) : fracLen s = 0 := by
  induction s with
  | nil => rfl
  | cons c r ih =>
    simp only [List.mem_cons, not_or] at h
    simp [fracLen, Ne.symm h.1, ih h.2]

theorem fracLen_append_not_mem {xs : List Char} (ys : List Char) (h : '.' ∉ xs) :
    fracLen (xs ++ ys) = fracLen ys := by
  induction xs with
  | nil => rfl
  | cons c r ih =>
    simp only [List.mem_cons, not_or] at h
    simp [fracLen, Ne.symm h.1, ih h.2]

theorem fracLen_append_mem {xs : List Char} (ys : List Char) (h : '.' ∈ xs) :
    fracLen (xs ++ ys) = fracLen xs + ys.length := by
  induction xs with
  | nil => exact absurd h (List.not_mem_nil '.')
  | cons c r ih =>
    by_cases hc : c = '.'
    · simp [fracLen, hc]
    · have hr : '.' ∈ r := by
        cases List.mem_cons.mp h with
        | inl h0 => exact absurd h0.symm hc
        | inr h0 => exact h0
      simp [fracLen, hc, ih hr]

/-! ## Well-formed strings decompose around their decimal point -/

theorem allDig_not_dot {s : List Char} (h : allDig s = true) : '.' ∉ s := by
  intro hmem
  have := List.all_eq_true.mp h '.' hmem
  exact absurd this (by decide)

theorem split_first_mem {c : Char} :
    ∀ l : List Char, c ∈ l → l.count c ≤ 1 →
      ∃ s t, l = s ++ c :: t ∧ c ∉ s ∧ c ∉ t := by
  intro l
  induction l with
  | nil => intro h; exact absurd h (List.not_mem_nil c)
  | cons x xs ih =>
    intro hmem hcount
    by_cases hx : x = c
    · subst hx
      refine ⟨[], xs, rfl, List.not_mem_nil x, ?_⟩
      intro hc
      have h1 : 0 < xs.count x := List.count_pos_iff_mem.mpr hc
      have h2 : (x :: xs).count x = xs.count x + 1 := List.count_cons_self x xs
      omega
    · have hmem2 : c ∈ xs := by
        cases List.mem_cons.mp hmem with
        | inl h0 => exact absurd h0.symm hx
        | inr h0 => exact h0
      have hcount2 : xs.count c ≤ 1 := by
        have := List.count_cons c x xs
        omega
      obtain ⟨s, t, rfl, hs, ht⟩ := ih hmem2 hcount2
      refine ⟨x :: s, t, rfl, ?_, ht⟩
      intro hc
      cases List.mem_cons.mp hc with
      | inl h0 => exact hx h0.symm
      | inr h0 => exact hs h0

theorem wf_decompose {s : List Char} (h : wf s = true) :
    ∃ I F, dotAppend s = I ++ '.' :: F ∧ allDig I = true ∧ allDig F = true := by
  simp only [wf, Bool.and_eq_true, decide_eq_true_eq] at h
  obtain ⟨hall, hcount⟩ := h
  have hdig : ∀ c ∈ s, c ≠ '.' → isDig c = true := by
    intro c hc hne
    have := List.all_eq_true.mp hall c hc
    simp only [digOrDot, Bool.or_eq_true, beq_iff_eq] at this
    cases this with
    | inl h0 => exact h0
    | inr h0 => exact absurd h0 hne
  by_cases hmem : '.' ∈ s
  · obtain ⟨I, F, hsplit, hI, hF⟩ := split_first_mem s hmem hcount
    refine ⟨I, F, ?_, ?_, ?_⟩
    · rw [dotAppend, if_pos hmem, hsplit]
    · apply List.all_eq_true.mpr
      intro c hc
      refine hdig c ?_ ?_
      · rw [hsplit]; exact List.mem_append_left _ hc
      · intro h0; rw [h0] at hc; exact hI hc
    · apply List.all_eq_true.mpr
      intro c hc
      refine hdig c ?_ ?_
      · rw [hsplit]; exact List.mem_append_right _ (List.mem_cons_of_mem _ hc)
      · intro h0; rw [h0] at hc; exact hF hc
  · refine ⟨s, [], ?_, ?_, rfl⟩
    · rw [dotAppend, if_neg hmem]
    · apply List.all_eq_true.mpr
      intro c hc
      refine hdig c hc ?_
      intro h0; rw [h0] at hc; exact hmem hc

theorem indexOf_append_dot {I : List Char} (F : List Char) (h : '.' ∉ I) :
    (I ++ '.' :: F).indexOf '.' = I.length := by
  induction I with
  | nil => simp [List.indexOf_cons_self]
  | cons c r ih =>
    simp only [List.mem_cons, not_or] at h
    rw [List.cons_append, List.indexOf_cons_ne _ (by exact fun h0 => h.1 h0.symm),
      ih h.2, List.length_cons]

/-! ## Alignment lemmas -/

theorem alignedD_length_eq {a b : List Char} (h : AlignedD a b) : a.length = b.length := by
  induction h with
  | nil => rfl
  | dot _ ih => simp [ih]
  | dig _ _ _ ih => simp [ih]

theorem alignedD_digCount_eq {a b : List Char} (h : AlignedD a b) :
    digCount a = digCount b := by
  induction h with
  | nil => rfl
  | dot _ ih => simp [digCount, ih]
  | dig hca hcb _ ih =>
    simp [digCount, if_neg (isDig_ne_dot hca), if_neg (isDig_ne_dot hcb), ih]

theorem alignedD_fracLen_eq {a b : List Char} (h : AlignedD a b) :
    fracLen a = fracLen b := by
  induction h with
  | nil => rfl
  | dot hab _ => simp [fracLen, alignedD_length_eq hab]
  | dig hca hcb _ ih =>
    simp [fracLen, if_neg (isDig_ne_dot hca), if_neg (isDig_ne_dot hcb), ih]

theorem alignedD_of_allDig :
    ∀ {xs ys : List Char}, allDig xs = true → allDig ys = true →
      xs.length = ys.length → AlignedD xs ys := by
  intro xs
  induction xs with
  | nil =>
    intro ys _ _ hlen
    cases ys with
    | nil => exact AlignedD.nil
    | cons d t => simp at hlen
  | cons c r ih =>
    intro ys hx hy hlen
    cases ys with
    | nil => simp at hlen
    | cons d t =>
      simp only [allDig, List.all_cons, Bool.and_eq_true] at hx hy
      exact AlignedD.dig hx.1 hy.1 (ih hx.2 hy.2 (by simpa using hlen))

theorem alignedD_append {a b x y : List Char} (h1 : AlignedD a b) (h2 : AlignedD x y) :
    AlignedD (a ++ x) (b ++ y) := by
  induction h1 with
  | nil => simpa using h2
  | dot _ ih => exact AlignedD.dot ih
  | dig hca hcb _ ih => exact AlignedD.dig hca hcb ih

theorem alignedD_allDig {p q : List Char} (h : AlignedD p q) (hq : allDig q = true) :
    allDig p = true := by
  induction h with
  | nil => rfl
  | dot _ _ =>
    simp only [allDig, List.all_cons, Bool.and_eq_true] at hq
    exact absurd hq.1 (by decide)
  | dig hca _ _ ih =>
    simp only [allDig, List.all_cons, Bool.and_eq_true] at hq ⊢
    exact ⟨hca, ih hq.2⟩

theorem alignedD_decomp {r s : List Char} (h : AlignedD r s) :
    ∀ {x y : List Char}, s = x ++ '.' :: y → '.' ∉ x →
      ∃ rx ry, r = rx ++ '.' :: ry ∧ allDig rx = true ∧ AlignedD ry y ∧
        rx.length = x.length := by
  induction h with
  | nil =>
    intro x y hs _
    exact absurd hs.symm (by simp)
  | @dot ra rb hab _ =>
    intro x y hs hx
    cases x with
    | nil =>
      simp only [List.nil_append] at hs
      injection hs with _ h2
      subst h2
      exact ⟨[], ra, rfl, rfl, hab, rfl⟩
    | cons d t =>
      simp only [List.cons_append] at hs
      injection hs with h1 _
      exact absurd h1.symm (fun h0 => hx (by rw [h0]; exact List.mem_cons_self _ _))
  | @dig ca cb ra rb hca hcb _ ih =>
    intro x y hs hx
    cases x with
    | nil =>
      simp only [List.nil_append] at hs
      injection hs with h1 _
      exact absurd h1 (isDig_ne_dot hcb)
    | cons d t =>
      simp only [List.cons_append] at hs
      injection hs with _ h2
      obtain ⟨rx, ry, hr, hrx, hry, hlen⟩ := ih h2 (fun h0 => hx (List.mem_cons_of_mem _ h0))
      refine ⟨ca :: rx, ry, by rw [hr, List.cons_append], ?_, hry, by simp [hlen]⟩
      simp only [allDig, List.all_cons, Bool.and_eq_true]
      exact ⟨hca, hrx⟩

/-! ## Correctness of the structural addition loop -/

theorem addTail_spec {a b : List Char} (h : AlignedD a b) :
    ∃ c ret, addTail a b = some (c, ret) ∧ c ≤ 1 ∧ AlignedD ret a ∧
      natVal ret + c * 10 ^ digCount ret = natVal a + natVal b := by
  induction h with
  | nil => exact ⟨0, [], rfl, by omega, AlignedD.nil, by simp [natVal]⟩
  | @dot ra rb _ ih =>
    obtain ⟨c, ret, hat, hc, hal, hsum⟩ := ih
    refine ⟨c, '.' :: ret, ?_, hc, AlignedD.dot hal, ?_⟩
    · simp [addTail, hat]
    · simpa [natVal, digCount] using hsum
  | @dig ca cb ra rb hca hcb hab ih =>
    obtain ⟨c, ret, hat, hc, hal, hsum⟩ := ih
    have hva : digitVal ca ≤ 9 := isDig_digitVal_le hca
    have hvb : digitVal cb ≤ 9 := isDig_digitVal_le hcb
    have hne1 : ca ≠ '.' := isDig_ne_dot hca
    have hne2 : cb ≠ '.' := isDig_ne_dot hcb
    have hmod : (digitVal ca + digitVal cb + c) % 10 < 10 := Nat.mod_lt _ (by omega)
    refine ⟨(digitVal ca + digitVal cb + c) / 10,
      digitChar ((digitVal ca + digitVal cb + c) % 10) :: ret, ?_, by omega, ?_, ?_⟩
    · simp [addTail, hat, hne1, hne2]
    · exact AlignedD.dig (isDig_digitChar _ hmod) hca hal
    · rw [alignedD_digCount_eq hal] at hsum
      have hdcb : digCount rb = digCount ra := (alignedD_digCount_eq hab).symm
      have hkey : (digitVal ca + digitVal cb + c) % 10 +
          10 * ((digitVal ca + digitVal cb + c) / 10) = digitVal ca + digitVal cb + c :=
        Nat.mod_add_div _ 10
      simp only [natVal, digCount, if_neg (digitChar_ne_dot _ hmod), if_neg hne1,
        if_neg hne2, digitVal_digitChar _ hmod, alignedD_digCount_eq hal, hdcb]
      calc (digitVal ca + digitVal cb + c) % 10 * 10 ^ digCount ra + natVal ret +
            (digitVal ca + digitVal cb + c) / 10 * 10 ^ (1 + digCount ra)
          = ((digitVal ca + digitVal cb + c) % 10 +
              10 * ((digitVal ca + digitVal cb + c) / 10)) * 10 ^ digCount ra +
              natVal ret := by
            rw [pow_add, pow_one]; ring
        _ = (digitVal ca + digitVal cb + c) * 10 ^ digCount ra + natVal ret := by
            rw [hkey]
        _ = digitVal ca * 10 ^ digCount ra + digitVal cb * 10 ^ digCount ra +
              (natVal ret + c * 10 ^ digCount ra) := by ring
        _ = digitVal ca * 10 ^ digCount ra + digitVal cb * 10 ^ digCount ra +
              (natVal ra + natVal rb) := by rw [hsum]
        _ = digitVal ca * 10 ^ digCount ra + natVal ra +
              (digitVal cb * 10 ^ digCount ra + natVal rb) := by ring

/-! ## The indexed loop agrees with the structural loop -/

theorem allDig_replicate_zero (k : Nat) : allDig (List.replicate k '0') = true := by
  induction k with
  | zero => rfl
  | succ k ih => simp only [List.replicate, allDig, List.all_cons, Bool.and_eq_true]; exact ⟨by decide, ih⟩

theorem allDig_append (xs ys : List Char) :
    allDig (xs ++ ys) = (allDig xs && allDig ys) := by
  simp [allDig, List.all_append]

theorem get?_replicate (x : Char) :
    ∀ n j : Nat, (List.replicate n x).get? j = if j < n then some x else none := by
  intro n
  induction n with
  | zero => intro j; simp
  | succ n ih =>
    intro j
    rw [List.replicate_succ]
    cases j with
    | zero => simp
    | succ j =>
      simp only [List.get?]
      rw [ih j]
      simp [Nat.succ_lt_succ_iff]

theorem jsCharAt_pad (s : List Char) (M i : Nat) (hi : i < M ∨ M - s.length = 0) :
    jsCharAt (s ++ List.replicate (M - s.length) '0') i = jsCharAt s i ∨
    (jsCharAt (s ++ List.replicate (M - s.length) '0') i = some '0' ∧
      jsCharAt s i = none) := by
  by_cases hil : i < s.length
  · left
    simp only [jsCharAt]
    exact List.get?_append hil
  · by_cases hpad : M - s.length = 0
    · left
      rw [hpad]
      simp
    · right
      have hiM : i < M := by
        cases hi with
        | inl h0 => exact h0
        | inr h0 => exact absurd h0 hpad
      constructor
      · simp only [jsCharAt]
        rw [List.get?_append_right (by omega), get?_replicate]
        rw [if_pos (by omega)]
      · simp only [jsCharAt]
        exact List.get?_eq_none.mpr (by omega)

theorem addLoop_pad (a b : List Char) (M : Nat) :
    ∀ k, addLoop a b M k =
      addLoop (a ++ List.replicate (M - a.length) '0')
        (b ++ List.replicate (M - b.length) '0') M k := by
  intro k
  induction k with
  | zero => rfl
  | succ k ih =>
    rw [addLoop, addLoop, ← ih]
    cases addLoop a b M k with
    | none => rfl
    | some p =>
      obtain ⟨c, ret⟩ := p
      simp only
      have hi : M - 1 - k < M ∨ (M - a.length = 0 ∧ M - b.length = 0) := by omega
      have hia : M - 1 - k < M ∨ M - a.length = 0 := by omega
      have hib : M - 1 - k < M ∨ M - b.length = 0 := by omega
      rcases jsCharAt_pad a M (M - 1 - k) hia with hA | ⟨hA1, hA2⟩ <;>
        rcases jsCharAt_pad b M (M - 1 - k) hib with hB | ⟨hB1, hB2⟩
      · rw [hA, hB]
      · rw [hA, hB1, hB2]
        simp [jsIntVal, show digitVal '0' = 0 from by decide]
      · rw [hA1, hA2, hB]
        simp [jsIntVal, show digitVal '0' = 0 from by decide]
      · rw [hA1, hA2, hB1, hB2]
        simp [jsIntVal, show digitVal '0' = 0 from by decide]

theorem addLoop_eq_addTail (a b : List Char) (M : Nat)
    (ha : a.length = M) (hb : b.length = M) :
    ∀ k, k ≤ M → addLoop a b M k = addTail (a.drop (M - k)) (b.drop (M - k)) := by
  intro k
  induction k with
  | zero =>
    intro _
    rw [addLoop, Nat.sub_zero, ← ha, List.drop_length, ha, ← hb, List.drop_length]
    rfl
  | succ k ih =>
    intro hk
    have hk2 : k ≤ M := Nat.le_of_succ_le hk
    have hidx : M - (k + 1) < M := by omega
    have hstep : M - (k + 1) + 1 = M - k := by omega
    have h0a : M - (k + 1) < a.length := by omega
    have h0b : M - (k + 1) < b.length := by omega
    have hdropa := List.drop_eq_get_cons h0a
    have hdropb := List.drop_eq_get_cons h0b
    rw [hstep] at hdropa hdropb
    have hgeta : jsCharAt a (M - 1 - k) = some (a.get ⟨M - (k + 1), h0a⟩) := by
      simp only [jsCharAt]
      have h0 : M - 1 - k = M - (k + 1) := by omega
      rw [h0]
      exact List.get?_eq_get _
    have hgetb : jsCharAt b (M - 1 - k) = some (b.get ⟨M - (k + 1), h0b⟩) := by
      simp only [jsCharAt]
      have h0 : M - 1 - k = M - (k + 1) := by omega
      rw [h0]
      exact List.get?_eq_get _
    rw [addLoop, ih hk2, hdropa, hdropb]
    simp only [addTail]
    cases addTail (a.drop (M - k)) (b.drop (M - k)) with
    | none => rfl
    | some p =>
      obtain ⟨c, ret⟩ := p
      simp only [hgeta, hgetb, jsIntVal, Option.some.injEq]

/-! ## Value preservation through normalization and the epilogue -/

theorem val_dotAppend (s : List Char) : val (dotAppend s) = val s := by
  by_cases h : '.' ∈ s
  · rw [dotAppend, if_pos h]
  · rw [dotAppend, if_neg h, val, val, natVal_append, fracLen_append_not_mem _ h,
      fracLen_not_mem h]
    simp [natVal, digCount, fracLen]

theorem val_padLeftZeros (k : Nat) (s : List Char) :
    val (List.replicate k '0' ++ s) = val s := by
  have hnm : '.' ∉ List.replicate k '0' := by
    intro hmem
    exact absurd (List.eq_of_mem_replicate hmem) (by decide)
  rw [val, val, natVal_append, natVal_replicate_zero, fracLen_append_not_mem _ hnm]
  simp

theorem val_padRightZeros (k : Nat) {s : List Char} (h : '.' ∈ s) :
    val (s ++ List.replicate k '0') = val s := by
  rw [val, val, natVal_append, natVal_replicate_zero, digCount_replicate_zero,
    fracLen_append_mem _ h, List.length_replicate]
  have h10 : ((10 : ℚ)) ^ k ≠ 0 := pow_ne_zero _ (by norm_num)
  push_cast
  rw [pow_add, add_zero, mul_div_mul_right _ _ h10]

theorem popVal {ret1 rI1 rF : List Char} (h1 : ret1 = rI1 ++ '.' :: rF)
    (h2 : '.' ∉ rI1) (h3 : allDig rF = true) :
    val (if ret1.getLast? = some '.' then ret1.dropLast else ret1) =
      (natVal ret1 : ℚ) / 10 ^ rF.length := by
  cases rF with
  | nil =>
    have hlast : ret1.getLast? = some '.' := by
      rw [h1]
      exact List.getLast?_concat _
    rw [if_pos hlast, h1, List.dropLast_concat, val, natVal_append]
    simp [natVal, digCount, fracLen_not_mem h2]
  | cons g gs =>
    have hgne : (g :: gs) ≠ ([] : List Char) := by simp
    have hglast : (g :: gs).getLast? = some ((g :: gs).getLast hgne) :=
      List.getLast?_eq_getLast _ _
    have hzdig : isDig ((g :: gs).getLast hgne) = true :=
      List.all_eq_true.mp h3 _ (List.getLast_mem hgne)
    have hlast : ret1.getLast? = some ((g :: gs).getLast hgne) := by
      rw [h1, List.getLast?_append_of_ne_nil _ (by simp)]
      exact hglast
    rw [if_neg (by rw [hlast]; intro h0; exact isDig_ne_dot hzdig (by injection h0))]
    rw [val, h1, fracLen_append_not_mem _ h2]
    simp [fracLen]

theorem addFinish_val {c N : Nat} {ret rI rF : List Char} (hc : c ≤ 1)
    (hret : ret = rI ++ '.' :: rF) (hrI : '.' ∉ rI) (hrF : allDig rF = true)
    (hsum : natVal ret + c * 10 ^ digCount ret = N) :
    val (addFinish c ret) = (N : ℚ) / 10 ^ rF.length := by
  interval_cases c
  · simp only [addFinish, gt_iff_lt, lt_irrefl, if_false]
    rw [popVal hret hrI hrF, ← hsum]
    simp
  · simp only [addFinish, gt_iff_lt, Nat.zero_lt_one, if_true]
    rw [show Nat.toDigits 10 1 = ['1'] from by decide]
    have hret1 : ('1' : Char) :: ret = ('1' :: rI) ++ '.' :: rF := by rw [hret]; rfl
    have hrI1 : '.' ∉ ('1' :: rI) := by
      intro hmem
      cases List.mem_cons.mp hmem with
      | inl h0 => exact absurd h0 (by decide)
      | inr h0 => exact hrI h0
    rw [show (['1'] ++ ret : List Char) = '1' :: ret from rfl, popVal hret1 hrI1 hrF]
    congr 1
    have hN : natVal ('1' :: ret) = N := by
      rw [natVal, if_neg (by decide), show digitVal '1' = 1 from by decide]
      omega
    rw [hN]

/-! ## Correctness of `string_add` on well-formed strings -/

theorem string_add_spec (a b : List Char) (ha : wf a = true) (hb : wf b = true) :
    ∃ r, string_add a b = some r ∧ val r = val a + val b := by
  obtain ⟨aI, aF, haEq, haI, haF⟩ := wf_decompose ha
  obtain ⟨bI, bF, hbEq, hbI, hbF⟩ := wf_decompose hb
  have hadi : (dotAppend a).indexOf '.' = aI.length := by
    rw [haEq]
    exact indexOf_append_dot aF (allDig_not_dot haI)
  have hbdi : (dotAppend b).indexOf '.' = bI.length := by
    rw [hbEq]
    exact indexOf_append_dot bF (allDig_not_dot hbI)
  have ha2 : alignA a b =
      (List.replicate (bI.length - aI.length) '0' ++ aI) ++ '.' :: aF := by
    simp only [alignA]
    rw [hadi, hbdi, haEq, List.append_assoc]
  have hb2 : alignA b a =
      (List.replicate (aI.length - bI.length) '0' ++ bI) ++ '.' :: bF := by
    simp only [alignA]
    rw [hadi, hbdi, hbEq, List.append_assoc]
  have haI2dig : allDig (List.replicate (bI.length - aI.length) '0' ++ aI) = true := by
    rw [allDig_append, allDig_replicate_zero, haI]
    rfl
  have hbI2dig : allDig (List.replicate (aI.length - bI.length) '0' ++ bI) = true := by
    rw [allDig_append, allDig_replicate_zero, hbI]
    rfl
  have haI2len : (List.replicate (bI.length - aI.length) '0' ++ aI).length =
      max aI.length bI.length := by
    simp only [List.length_append, List.length_replicate]
    omega
  have hbI2len : (List.replicate (aI.length - bI.length) '0' ++ bI).length =
      max aI.length bI.length := by
    simp only [List.length_append, List.length_replicate]
    omega
  have ha2len : (alignA a b).length = max aI.length bI.length + 1 + aF.length := by
    rw [ha2]
    simp only [List.length_append, List.length_replicate, List.length_cons]
    omega
  have hb2len : (alignA b a).length = max aI.length bI.length + 1 + bF.length := by
    rw [hb2]
    simp only [List.length_append, List.length_replicate, List.length_cons]
    omega
  have hMval : max (alignA a b).length (alignA b a).length =
      max aI.length bI.length + 1 + max aF.length bF.length := by
    rw [ha2len, hb2len]
    omega
  have hApad : alignA a b ++ List.replicate
        (max (alignA a b).length (alignA b a).length - (alignA a b).length) '0' =
      (List.replicate (bI.length - aI.length) '0' ++ aI) ++
        '.' :: (aF ++ List.replicate (max aF.length bF.length - aF.length) '0') := by
    have hcnt : max (alignA a b).length (alignA b a).length - (alignA a b).length =
        max aF.length bF.length - aF.length := by
      rw [hMval, ha2len]
      omega
    rw [hcnt, ha2, List.append_assoc]
    rfl
  have hBpad : alignA b a ++ List.replicate
        (max (alignA a b).length (alignA b a).length - (alignA b a).length) '0' =
      (List.replicate (aI.length - bI.length) '0' ++ bI) ++
        '.' :: (bF ++ List.replicate (max aF.length bF.length - bF.length) '0') := by
    have hcnt : max (alignA a b).length (alignA b a).length - (alignA b a).length =
        max aF.length bF.length - bF.length := by
      rw [hMval, hb2len]
      omega
    rw [hcnt, hb2, List.append_assoc]
    rfl
  have hFa : allDig (aF ++ List.replicate (max aF.length bF.length - aF.length) '0') =
      true := by
    rw [allDig_append, haF, allDig_replicate_zero]
    rfl
  have hFb : allDig (bF ++ List.replicate (max aF.length bF.length - bF.length) '0') =
      true := by
    rw [allDig_append, hbF, allDig_replicate_zero]
    rfl
  have hFalen : (aF ++ List.replicate (max aF.length bF.length - aF.length) '0').length =
      max aF.length bF.length := by
    simp only [List.length_append, List.length_replicate]
    omega
  have hFblen : (bF ++ List.replicate (max aF.length bF.length - bF.length) '0').length =
      max aF.length bF.length := by
    simp only [List.length_append, List.length_replicate]
    omega
  have haPlen : ((List.replicate (bI.length - aI.length) '0' ++ aI) ++
        '.' :: (aF ++ List.replicate (max aF.length bF.length - aF.length) '0')).length =
      max (alignA a b).length (alignA b a).length := by
    rw [hMval]
    simp only [List.length_append, List.length_replicate, List.length_cons]
    omega
  have hbPlen : ((List.replicate (aI.length - bI.length) '0' ++ bI) ++
        '.' :: (bF ++ List.replicate (max aF.length bF.length - bF.length) '0')).length =
      max (alignA a b).length (alignA b a).length := by
    rw [hMval]
    simp only [List.length_append, List.length_replicate, List.length_cons]
    omega
  have hAligned : AlignedD
      ((List.replicate (bI.length - aI.length) '0' ++ aI) ++
        '.' :: (aF ++ List.replicate (max aF.length bF.length - aF.length) '0'))
      ((List.replicate (aI.length - bI.length) '0' ++ bI) ++
        '.' :: (bF ++ List.replicate (max aF.length bF.length - bF.length) '0')) :=
    alignedD_append (alignedD_of_allDig haI2dig hbI2dig (haI2len.trans hbI2len.symm))
      (AlignedD.dot (alignedD_of_allDig hFa hFb (hFalen.trans hFblen.symm)))
  obtain ⟨c, ret, hat, hc, hal, hsum⟩ := addTail_spec hAligned
  obtain ⟨rI, rF, hret, hrIdig, hrF, hrIlen⟩ :=
    alignedD_decomp hal rfl (allDig_not_dot haI2dig)
  have hrFdig : allDig rF = true := alignedD_allDig hrF hFa
  have hrFlen : rF.length = max aF.length bF.length := by
    rw [alignedD_length_eq hrF, hFalen]
  have hloop : addLoop (alignA a b) (alignA b a)
      (max (alignA a b).length (alignA b a).length)
      (max (alignA a b).length (alignA b a).length) =
      addTail
        ((List.replicate (bI.length - aI.length) '0' ++ aI) ++
          '.' :: (aF ++ List.replicate (max aF.length bF.length - aF.length) '0'))
        ((List.replicate (aI.length - bI.length) '0' ++ bI) ++
          '.' :: (bF ++ List.replicate (max aF.length bF.length - bF.length) '0')) := by
    rw [addLoop_pad, hApad, hBpad,
      addLoop_eq_addTail _ _ _ haPlen hbPlen _ le_rfl, Nat.sub_self, List.drop_zero,
      List.drop_zero]
  have hstring : string_add a b = some (addFinish c ret) := by
    unfold string_add
    rw [hloop, hat]
  have hfracAP : fracLen
      ((List.replicate (bI.length - aI.length) '0' ++ aI) ++
        '.' :: (aF ++ List.replicate (max aF.length bF.length - aF.length) '0')) =
      max aF.length bF.length := by
    rw [fracLen_append_not_mem _ (allDig_not_dot haI2dig)]
    simp only [fracLen, if_pos rfl]
    exact hFalen
  have hfracBP : fracLen
      ((List.replicate (aI.length - bI.length) '0' ++ bI) ++
        '.' :: (bF ++ List.replicate (max aF.length bF.length - bF.length) '0')) =
      max aF.length bF.length := by
    rw [fracLen_append_not_mem _ (allDig_not_dot hbI2dig)]
    simp only [fracLen, if_pos rfl]
    exact hFblen
  have hvalaP : val
      ((List.replicate (bI.length - aI.length) '0' ++ aI) ++
        '.' :: (aF ++ List.replicate (max aF.length bF.length - aF.length) '0')) =
      val a := by
    rw [← hApad, val_padRightZeros _ (by
      rw [ha2]
      exact List.mem_append_right _ (List.mem_cons_self _ _))]
    calc val (alignA a b) = val (dotAppend a) := by
          simp only [alignA]
          exact val_padLeftZeros _ _
      _ = val a := val_dotAppend a
  have hvalbP : val
      ((List.replicate (aI.length - bI.length) '0' ++ bI) ++
        '.' :: (bF ++ List.replicate (max aF.length bF.length - bF.length) '0')) =
      val b := by
    rw [← hBpad, val_padRightZeros _ (by
      rw [hb2]
      exact List.mem_append_right _ (List.mem_cons_self _ _))]
    calc val (alignA b a) = val (dotAppend b) := by
          simp only [alignA]
          exact val_padLeftZeros _ _
      _ = val b := val_dotAppend b
  refine ⟨addFinish c ret, hstring, ?_⟩
  rw [addFinish_val hc hret (allDig_not_dot hrIdig) hrFdig hsum, ← hvalaP, ← hvalbP]
  simp only [val]
  rw [hfracAP, hfracBP, hrFlen]
  push_cast
  rw [add_div]

/-- C3: for well-formed non-negative decimal strings, add returns a string
whose exact numeric value is value(a) + value(b). -/
theorem claimC3_add_exact (a b : List Char) (ha : wf a = true) (hb : wf b = true) :
    ∃ r, string_add a b = some r ∧ val r = val a + val b :=
  string_add_spec a b ha hb

theorem claimC3_witness :
    (wf ['1', '.', '5'] = true ∧ wf ['2', '.', '2', '5'] = true ∧
      string_add ['1', '.', '5'] ['2', '.', '2', '5'] = some ['3', '.', '7', '5']) ∧
    (∃ r, string_add ['1', '.', '5'] ['2', '.', '2', '5'] = some r ∧
      val r = val ['1', '.', '5'] + val ['2', '.', '2', '5']) :=
  ⟨⟨by decide, by decide, by decide⟩, claimC3_add_exact _ _ (by decide) (by decide)⟩

/-- C8: the "Decimal alignment error" branch of add is unreachable on
well-formed inputs: for every pair of well-formed non-negative decimal
strings, add never throws (in the embedding, never returns `none`; `none`
arises, by construction of `addLoop`, only from the mismatched-decimal-point
branch). -/
theorem claimC8_add_never_throws (a b : List Char)
    (ha : wf a = true) (hb : wf b = true) : (string_add a b).isSome = true := by
  obtain ⟨r, hr, _⟩ := string_add_spec a b ha hb
  rw [hr]
  rfl

theorem claimC8_witness :
    (wf ['9', '.', '9'] = true ∧ wf ['0', '.', '1', '2'] = true) ∧
    (string_add ['9', '.', '9'] ['0', '.', '1', '2']).isSome = true :=
  ⟨⟨by decide, by decide⟩, claimC8_add_never_throws _ _ (by decide) (by decide)⟩

/-! ## Correctness of `string_half` -/

theorem allDig_replicate_five (k : Nat) : allDig (List.replicate k '5') = true := by
  induction k with
  | zero => rfl
  | succ k ih =>
    simp only [List.replicate, allDig, List.all_cons, Bool.and_eq_true]
    exact ⟨by decide, ih⟩

theorem halfLoop_spec :
    ∀ s : List Char, s.all digOrDot = true → ∀ c : Nat, c = 0 ∨ c = 10 →
      ∃ ret0 t, t ≤ 1 ∧ halfLoop s c = ret0 ++ List.replicate t '5' ∧
        AlignedD ret0 s ∧
        2 * natVal (halfLoop s c) = (c / 10 * 10 ^ digCount s + natVal s) * 10 ^ t := by
  intro s
  induction s with
  | nil =>
    intro _ c hc
    rcases hc with rfl | rfl
    · exact ⟨[], 0, by omega, rfl, AlignedD.nil, by decide⟩
    · exact ⟨[], 1, by omega, rfl, AlignedD.nil, by decide⟩
  | cons ch rest ih =>
    intro hall c hc
    simp only [List.all_cons, Bool.and_eq_true] at hall
    obtain ⟨hch, hrest⟩ := hall
    by_cases hdot : ch = '.'
    · subst hdot
      obtain ⟨ret0, t, ht, heq, halg, hval⟩ := ih hrest c hc
      have hstep : halfLoop ('.' :: rest) c = '.' :: halfLoop rest c := by
        simp [halfLoop]
      refine ⟨'.' :: ret0, t, ht, ?_, AlignedD.dot halg, ?_⟩
      · rw [hstep, heq]
        rfl
      · rw [hstep, natVal, if_pos rfl, hval]
        simp [digCount, natVal]
    · have hdig : isDig ch = true := by
        simp only [digOrDot, Bool.or_eq_true, beq_iff_eq] at hch
        cases hch with
        | inl h0 => exact h0
        | inr h0 => exact absurd h0 hdot
      have hvch : digitVal ch ≤ 9 := isDig_digitVal_le hdig
      have hc2or : (if digitVal ch % 2 = 1 then 10 else 0) = 0 ∨
          (if digitVal ch % 2 = 1 then 10 else 0) = 10 := by
        split
        · right; rfl
        · left; rfl
      obtain ⟨ret0, t, ht, heq, halg, hval⟩ :=
        ih hrest (if digitVal ch % 2 = 1 then 10 else 0) hc2or
      have hstep : halfLoop (ch :: rest) c =
          digitChar ((digitVal ch + c) / 2) ::
            halfLoop rest (if digitVal ch % 2 = 1 then 10 else 0) := by
        simp [halfLoop, hdot]
      have hout : (digitVal ch + c) / 2 < 10 := by
        rcases hc with rfl | rfl <;> omega
      refine ⟨digitChar ((digitVal ch + c) / 2) :: ret0, t, ht, ?_, ?_, ?_⟩
      · rw [hstep, heq]
        rfl
      · exact AlignedD.dig (isDig_digitChar _ hout) hdig halg
      · rw [hstep, natVal, if_neg (digitChar_ne_dot _ hout), digitVal_digitChar _ hout]
        have hdc : digCount (halfLoop rest (if digitVal ch % 2 = 1 then 10 else 0)) =
            digCount rest + t := by
          rw [heq, digCount_append, alignedD_digCount_eq halg, digCount_replicate_five]
        have hrhs1 : natVal (ch :: rest) = digitVal ch * 10 ^ digCount rest + natVal rest := by
          rw [natVal, if_neg hdot]
        have hrhs2 : digCount (ch :: rest) = 1 + digCount rest := by
          rw [digCount, if_neg hdot]
        have hkey : 2 * ((digitVal ch + c) / 2) + (if digitVal ch % 2 = 1 then 10 else 0) / 10 =
            c / 10 * 10 + digitVal ch := by
          rcases hc with rfl | rfl <;> split <;> omega
        rw [hdc, hrhs1, hrhs2]
        calc 2 * ((digitVal ch + c) / 2 * 10 ^ (digCount rest + t) +
              natVal (halfLoop rest (if digitVal ch % 2 = 1 then 10 else 0)))
            = 2 * ((digitVal ch + c) / 2) * (10 ^ digCount rest * 10 ^ t) +
              2 * natVal (halfLoop rest (if digitVal ch % 2 = 1 then 10 else 0)) := by
              rw [pow_add]
              ring
          _ = 2 * ((digitVal ch + c) / 2) * (10 ^ digCount rest * 10 ^ t) +
              ((if digitVal ch % 2 = 1 then 10 else 0) / 10 * 10 ^ digCount rest +
                natVal rest) * 10 ^ t := by rw [hval]
          _ = (2 * ((digitVal ch + c) / 2) +
                (if digitVal ch % 2 = 1 then 10 else 0) / 10) *
                10 ^ digCount rest * 10 ^ t + natVal rest * 10 ^ t := by ring
          _ = (c / 10 * 10 + digitVal ch) * 10 ^ digCount rest * 10 ^ t +
                natVal rest * 10 ^ t := by rw [hkey]
          _ = (c / 10 * 10 ^ (1 + digCount rest) +
                (digitVal ch * 10 ^ digCount rest + natVal rest)) * 10 ^ t := by
              rw [pow_add, pow_one]
              ring

theorem val_shiftZeros : ∀ s : List Char, val (shiftZeros s) = val s := by
  intro s
  induction s with
  | nil => rfl
  | cons c1 rest ih =>
    cases rest with
    | nil => rfl
    | cons c2 rest2 =>
      by_cases h1 : c1 = '0'
      · have hstep : shiftZeros (c1 :: c2 :: rest2) = shiftZeros (c2 :: rest2) := by
          simp [shiftZeros, h1]
        rw [hstep, ih]
        subst h1
        rw [val, val]
        have hnat : natVal ('0' :: c2 :: rest2) = natVal (c2 :: rest2) := by
          rw [natVal, if_neg (by decide), show digitVal '0' = 0 from by decide]
          simp
        have hfrac : fracLen ('0' :: c2 :: rest2) = fracLen (c2 :: rest2) := by
          rw [fracLen, if_neg (by decide)]
        rw [hnat, hfrac]
      · have hstep : shiftZeros (c1 :: c2 :: rest2) = c1 :: c2 :: rest2 := by
          simp [shiftZeros, h1]
        rw [hstep]

theorem string_half_spec (a : List Char) (ha : wf a = true) :
    val (string_half a) = val a / 2 := by
  obtain ⟨aI, aF, haEq, haI, haF⟩ := wf_decompose ha
  have hall : (dotAppend a).all digOrDot = true := by
    rw [haEq]
    simp only [List.all_append, List.all_cons, Bool.and_eq_true]
    refine ⟨?_, by decide, ?_⟩
    · apply List.all_eq_true.mpr
      intro c hc
      have := List.all_eq_true.mp haI c hc
      simp [digOrDot, this]
    · apply List.all_eq_true.mpr
      intro c hc
      have := List.all_eq_true.mp haF c hc
      simp [digOrDot, this]
  obtain ⟨ret0, t, ht, heq, halg, hval⟩ := halfLoop_spec (dotAppend a) hall 0 (Or.inl rfl)
  have hval2 : 2 * natVal (halfLoop (dotAppend a) 0) = natVal (dotAppend a) * 10 ^ t := by
    simpa using hval
  obtain ⟨rI, rF, hr0, hrIdig, hrF, hrIlen⟩ := alignedD_decomp halg haEq (allDig_not_dot haI)
  have hrFdig : allDig (rF ++ List.replicate t '5') = true := by
    rw [allDig_append, alignedD_allDig hrF haF, allDig_replicate_five]
    rfl
  have hrFlen : rF.length = aF.length := alignedD_length_eq hrF
  have hX : halfLoop (dotAppend a) 0 = rI ++ '.' :: (rF ++ List.replicate t '5') := by
    rw [heq, hr0, List.append_assoc]
    rfl
  have hfrac : fracLen (dotAppend a) = aF.length := by
    rw [haEq, fracLen_append_not_mem _ (allDig_not_dot haI)]
    simp [fracLen]
  simp only [string_half]
  rw [val_shiftZeros, hX, popVal rfl (allDig_not_dot hrIdig) hrFdig, ← hX]
  have hlen2 : (rF ++ List.replicate t '5').length = aF.length + t := by
    simp [hrFlen]
  rw [hlen2, ← val_dotAppend a, val, hfrac]
  have h2 : (2 : ℚ) * (natVal (halfLoop (dotAppend a) 0) : ℚ) =
      (natVal (dotAppend a) : ℚ) * 10 ^ t := by
    exact_mod_cast hval2
  have hne1 : ((10 : ℚ) ^ aF.length * 10 ^ t) ≠ 0 := by positivity
  have hne2 : ((10 : ℚ) ^ aF.length * 2) ≠ 0 := by positivity
  rw [pow_add, div_div, div_eq_div_iff hne1 hne2]
  linear_combination (10 : ℚ) ^ aF.length * h2

/-- C4: for every well-formed non-negative decimal string a, half(a) returns
a decimal string whose exact numeric value is value(a)/2. -/
theorem claimC4_half_exact (a : List Char) (ha : wf a = true) :
    val (string_half a) = val a / 2 :=
  string_half_spec a ha

theorem claimC4_witness :
    (wf ['5'] = true ∧ string_half ['5'] = ['2', '.', '5']) ∧
    val (string_half ['5']) = val ['5'] / 2 :=
  ⟨⟨by decide, by decide⟩, claimC4_half_exact ['5'] (by decide)⟩
